import Mathlib

/-!
Verification of the synchronization engine of `zbxtpltools`
(`zbxtpltools/zbxtpltools.py`, with callers `zbxtpl2git.py` and `zbxgit2tpl.py`).

The Python functions are shallowly embedded as executable Lean definitions:
dictionaries become association lists, Python sets become `Finset`, the
unbounded `while` loop of `resolve_dependencies` becomes a fuel-indexed
recursion (`resolveFuel n d = none` exactly when `n` rounds of the loop do
not suffice; the value `some r` is independent of the fuel once reached,
see `resolveFuel_mono`), and functions that can raise become `Except`.
Calls into the Zabbix API and into git are modelled as emitted effect values.
-/

namespace ZbxTplTools

variable {α : Type _} [DecidableEq α]

/-! ## `resolve_dependencies` (zbxtpltools.py lines 333-348)

Python source:
```
d = dict((k, set(deplist[k])) for k in deplist)
r = []
while d:
    t = set(i for v in d.values() for i in v)-set(d.keys())
    t.update(k for k, v in d.items() if not v)
    r.append(t)
    d = dict(((k, v-t) for k, v in d.items() if v))
return r
```
A dictionary mapping names to sets of names is an association list
`List (α × Finset α)`; a Python dict has no duplicate keys, which is the
hypothesis `(d.map Prod.fst).Nodup` where needed. -/

/-- `set(d.keys())`. -/
def dictKeys (d : List (α × Finset α)) : Finset α :=
  d.foldr (fun p s => insert p.1 s) ∅

/-- `set(i for v in d.values() for i in v)`: the union of all value sets. -/
def dictVU (d : List (α × Finset α)) : Finset α :=
  d.foldr (fun p s => p.2 ∪ s) ∅

/-- One round of the loop body computing `t`:
`set(i for v in d.values() for i in v) - set(d.keys())` updated with
`(k for k, v in d.items() if not v)`. -/
def nextWave (d : List (α × Finset α)) : Finset α :=
  (dictVU d \ dictKeys d) ∪ dictKeys (d.filter (fun p => decide (p.2 = ∅)))

/-- `dict(((k, v-t) for k, v in d.items() if v))`. -/
def cleanup (d : List (α × Finset α)) (t : Finset α) : List (α × Finset α) :=
  (d.filter (fun p => decide (p.2 ≠ ∅))).map (fun p => (p.1, p.2 \ t))

/-- The `while d:` loop, with fuel bounding the number of iterations.
`none` means the given number of rounds did not empty the dictionary. -/
def resolveFuel : Nat → List (α × Finset α) → Option (List (Finset α))
  | _, [] => some []
  | 0, _ :: _ => none
  | Nat.succ n, p :: d0 =>
      (resolveFuel n (cleanup (p :: d0) (nextWave (p :: d0)))).map
        (fun r => nextWave (p :: d0) :: r)

/-- `resolve_dependencies(deplist)`: the initial line
`d = dict((k, set(deplist[k])) for k in deplist)` copies every entry, then the
loop runs. The copy is made explicit by the `map`. -/
def resolve_dependencies (fuel : Nat) (deplist : List (α × Finset α)) :
    Option (List (Finset α)) :=
  resolveFuel fuel (deplist.map (fun p => (p.1, p.2)))

omit [DecidableEq α] in
lemma copy_eq (d : List (α × Finset α)) : d.map (fun p => (p.1, p.2)) = d := by
  induction d with
  | nil => rfl
  | cons p d ih => simp [ih]

lemma resolve_dependencies_eq (fuel : Nat) (d : List (α × Finset α)) :
    resolve_dependencies fuel d = resolveFuel fuel d := by
  rw [resolve_dependencies, copy_eq]

@[simp] lemma resolveFuel_nil (n : Nat) :
    resolveFuel n ([] : List (α × Finset α)) = some [] := by
  cases n <;> rfl

lemma resolveFuel_zero {d : List (α × Finset α)} (hd : d ≠ []) :
    resolveFuel 0 d = none := by
  cases d with
  | nil => exact absurd rfl hd
  | cons p d0 => rfl

lemma resolveFuel_succ (n : Nat) {d : List (α × Finset α)} (hd : d ≠ []) :
    resolveFuel (n + 1) d =
      (resolveFuel n (cleanup d (nextWave d))).map (fun r => nextWave d :: r) := by
  cases d with
  | nil => exact absurd rfl hd
  | cons p d0 => rfl

/-! ### Membership characterisations -/

lemma mem_dictKeys {x : α} {d : List (α × Finset α)} :
    x ∈ dictKeys d ↔ ∃ p ∈ d, p.1 = x := by
  induction d with
  | nil => simp [dictKeys]
  | cons p d ih =>
      simp only [dictKeys, List.foldr_cons, Finset.mem_insert] at *
      constructor
      · rintro (h | h)
        · exact ⟨p, by simp, h.symm⟩
        · obtain ⟨q, hq, hqx⟩ := ih.mp h
          exact ⟨q, by simp [hq], hqx⟩
      · rintro ⟨q, hq, hqx⟩
        rcases List.mem_cons.mp hq with h | h
        · subst h; exact Or.inl hqx.symm
        · exact Or.inr (ih.mpr ⟨q, h, hqx⟩)

lemma mem_dictVU {x : α} {d : List (α × Finset α)} :
    x ∈ dictVU d ↔ ∃ p ∈ d, x ∈ p.2 := by
  induction d with
  | nil => simp [dictVU]
  | cons p d ih =>
      simp only [dictVU, List.foldr_cons, Finset.mem_union] at *
      constructor
      · rintro (h | h)
        · exact ⟨p, by simp, h⟩
        · obtain ⟨q, hq, hqx⟩ := ih.mp h
          exact ⟨q, by simp [hq], hqx⟩
      · rintro ⟨q, hq, hqx⟩
        rcases List.mem_cons.mp hq with h | h
        · subst h; exact Or.inl hqx
        · exact Or.inr (ih.mpr ⟨q, h, hqx⟩)

lemma mem_nextWave {x : α} {d : List (α × Finset α)} :
    x ∈ nextWave d ↔
      (x ∈ dictVU d ∧ x ∉ dictKeys d) ∨ ∃ p ∈ d, p.1 = x ∧ p.2 = ∅ := by
  simp only [nextWave, Finset.mem_union, Finset.mem_sdiff, mem_dictKeys,
    List.mem_filter, decide_eq_true_eq]
  constructor
  · rintro (⟨h1, h2⟩ | ⟨p, ⟨hp, hpe⟩, hx⟩)
    · exact Or.inl ⟨h1, fun ⟨q, hq, hqx⟩ => h2 ⟨q, hq, hqx⟩⟩
    · exact Or.inr ⟨p, hp, hx, hpe⟩
  · rintro (⟨h1, h2⟩ | ⟨p, hp, hx, hpe⟩)
    · exact Or.inl ⟨h1, fun ⟨q, hq, hqx⟩ => h2 ⟨q, hq, hqx⟩⟩
    · exact Or.inr ⟨p, ⟨hp, hpe⟩, hx⟩

lemma mem_dictKeys_cleanup {x : α} {d : List (α × Finset α)} {t : Finset α} :
    x ∈ dictKeys (cleanup d t) ↔ ∃ p ∈ d, p.1 = x ∧ p.2 ≠ ∅ := by
  simp only [cleanup, mem_dictKeys, List.mem_map, List.mem_filter,
    decide_eq_true_eq]
  constructor
  · rintro ⟨q, ⟨p, ⟨hp, hpe⟩, rfl⟩, hx⟩
    exact ⟨p, hp, hx, hpe⟩
  · rintro ⟨p, hp, hx, hpe⟩
    exact ⟨(p.1, p.2 \ t), ⟨p, ⟨hp, hpe⟩, rfl⟩, hx⟩

lemma mem_dictVU_cleanup {x : α} {d : List (α × Finset α)} {t : Finset α} :
    x ∈ dictVU (cleanup d t) ↔ x ∈ dictVU d ∧ x ∉ t := by
  simp only [cleanup, mem_dictVU, List.mem_map, List.mem_filter,
    decide_eq_true_eq]
  constructor
  · rintro ⟨q, ⟨p, ⟨hp, hpe⟩, rfl⟩, hx⟩
    rcases Finset.mem_sdiff.mp hx with ⟨h1, h2⟩
    exact ⟨⟨p, hp, h1⟩, h2⟩
  · rintro ⟨⟨p, hp, hx⟩, hnt⟩
    refine ⟨(p.1, p.2 \ t), ⟨p, ⟨hp, ?_⟩, rfl⟩, Finset.mem_sdiff.mpr ⟨hx, hnt⟩⟩
    exact fun he => by simp [he] at hx

lemma keysNodup_cleanup {d : List (α × Finset α)} {t : Finset α}
    (h : (d.map Prod.fst).Nodup) : ((cleanup d t).map Prod.fst).Nodup := by
  have : (cleanup d t).map Prod.fst
      = (d.filter (fun p => decide (p.2 ≠ ∅))).map Prod.fst := by
    simp [cleanup, List.map_map, Function.comp]
  rw [this]
  exact (List.Sublist.map Prod.fst (List.filter_sublist d)).nodup h

omit [DecidableEq α] in
lemma eq_of_mem_of_keysNodup {d : List (α × Finset α)}
    (hnd : (d.map Prod.fst).Nodup) {p q : α × Finset α}
    (hp : p ∈ d) (hq : q ∈ d) (h : p.1 = q.1) : p = q := by
  induction d with
  | nil => cases hp
  | cons a d ih =>
      simp only [List.map_cons, List.nodup_cons] at hnd
      rcases List.mem_cons.mp hp with rfl | hp2
      · rcases List.mem_cons.mp hq with rfl | hq2
        · rfl
        · exact absurd (h ▸ List.mem_map_of_mem Prod.fst hq2) hnd.1
      · rcases List.mem_cons.mp hq with rfl | hq2
        · exact absurd (h ▸ List.mem_map_of_mem Prod.fst hp2) hnd.1
        · exact ih hnd.2 hp2 hq2

/-- Keys surviving `cleanup` are never part of the wave just emitted
(uses that dictionary keys are unique). -/
lemma not_mem_wave_of_mem_keys_cleanup {x : α} {d : List (α × Finset α)}
    (hnd : (d.map Prod.fst).Nodup)
    (hx : x ∈ dictKeys (cleanup d (nextWave d))) : x ∉ nextWave d := by
  obtain ⟨p, hp, hpx, hpe⟩ := mem_dictKeys_cleanup.mp hx
  intro hw
  rcases mem_nextWave.mp hw with ⟨_, h2⟩ | ⟨q, hq, hqx, hqe⟩
  · exact h2 (mem_dictKeys.mpr ⟨p, hp, hpx⟩)
  · have : p = q := eq_of_mem_of_keysNodup hnd hp hq (by rw [hpx, hqx])
    exact hpe (this ▸ hqe)

/-- Once a result is reached it is stable under more fuel: the fuel is only a
bound on the iteration count of the Python `while` loop, the returned list is
the list the Python code returns. -/
lemma resolveFuel_mono {n m : Nat} {d : List (α × Finset α)}
    {r : List (Finset α)} (h : resolveFuel n d = some r) (hnm : n ≤ m) :
    resolveFuel m d = some r := by
  induction n generalizing d r m with
  | zero =>
      cases d with
      | nil => simpa using h
      | cons p d0 => rw [resolveFuel_zero (by simp)] at h; cases h
  | succ n ih =>
      cases d with
      | nil => simpa using h
      | cons p d0 =>
          obtain ⟨m0, rfl⟩ : ∃ m0, m = m0 + 1 :=
            ⟨m - 1, by omega⟩
          rw [resolveFuel_succ n (by simp)] at h
          rw [resolveFuel_succ m0 (by simp)]
          obtain ⟨r0, hr0, rfl⟩ := Option.map_eq_some'.mp h
          rw [ih hr0 (by omega)]
          rfl

/-! ### Termination on acyclic inputs, divergence on cyclic ones

The loop makes progress exactly while each round's wave `t` is non-empty: an
empty wave leaves the dictionary unchanged (`v - ∅ = v` and no entry is
dropped since an entry with an empty value set would have put its key into
the wave), so the `while` loop then runs forever.  A round with an empty
wave can only happen when every remaining key has a non-empty dependency set
all of whose members are again keys, which forces a dependency cycle among
the keys. -/

/-- `depEdge d a b`: entry `a` of the dictionary lists `b` as a dependency
and `b` is itself a key. This is the key-restricted dependency graph. -/
def depEdge (d : List (α × Finset α)) (a b : α) : Prop :=
  ∃ p ∈ d, p.1 = a ∧ b ∈ p.2 ∧ b ∈ dictKeys d

/-- No dependency cycle confined to the keys of the dictionary. -/
def Acyclic (d : List (α × Finset α)) : Prop :=
  ∀ k, ¬ Relation.TransGen (depEdge d) k k

/-- Termination measure: total number of entries plus dependencies. -/
def dictMeasure (d : List (α × Finset α)) : Nat :=
  (d.map (fun p => 1 + p.2.card)).sum

omit [DecidableEq α] in
lemma dictMeasure_cons (p : α × Finset α) (d : List (α × Finset α)) :
    dictMeasure (p :: d) = 1 + p.2.card + dictMeasure d := by
  simp [dictMeasure]

lemma cleanup_cons (p : α × Finset α) (d : List (α × Finset α)) (t : Finset α) :
    cleanup (p :: d) t =
      if p.2 = ∅ then cleanup d t else (p.1, p.2 \ t) :: cleanup d t := by
  by_cases hp : p.2 = ∅ <;> simp [cleanup, List.filter_cons, hp]

lemma dictMeasure_cleanup_le (d : List (α × Finset α)) (t : Finset α) :
    dictMeasure (cleanup d t) ≤ dictMeasure d := by
  induction d with
  | nil => simp [cleanup, dictMeasure]
  | cons p d ih =>
      rw [cleanup_cons, dictMeasure_cons]
      by_cases hp : p.2 = ∅
      · simp only [hp, if_true]
        omega
      · simp only [hp, if_false, dictMeasure_cons]
        have : (p.2 \ t).card ≤ p.2.card :=
          Finset.card_le_card (Finset.sdiff_subset)
        omega

lemma dictMeasure_cleanup_lt_of_empty {d : List (α × Finset α)} {t : Finset α}
    {p : α × Finset α} (hp : p ∈ d) (hpe : p.2 = ∅) :
    dictMeasure (cleanup d t) < dictMeasure d := by
  induction d with
  | nil => cases hp
  | cons q d ih =>
      rw [cleanup_cons, dictMeasure_cons]
      by_cases hq : q.2 = ∅
      · simp only [hq, if_true]
        have := dictMeasure_cleanup_le d t
        omega
      · simp only [hq, if_false, dictMeasure_cons]
        rcases List.mem_cons.mp hp with rfl | hp2
        · exact absurd hpe hq
        · have := ih hp2
          have hc : (q.2 \ t).card ≤ q.2.card :=
            Finset.card_le_card (Finset.sdiff_subset)
          omega

lemma dictMeasure_cleanup_lt_of_hit {d : List (α × Finset α)} {t : Finset α}
    {p : α × Finset α} {x : α} (hp : p ∈ d) (hx : x ∈ p.2) (hxt : x ∈ t) :
    dictMeasure (cleanup d t) < dictMeasure d := by
  induction d with
  | nil => cases hp
  | cons q d ih =>
      rw [cleanup_cons, dictMeasure_cons]
      by_cases hq : q.2 = ∅
      · simp only [hq, if_true]
        have := dictMeasure_cleanup_le d t
        omega
      · simp only [hq, if_false, dictMeasure_cons]
        rcases List.mem_cons.mp hp with rfl | hp2
        · have hss : p.2 \ t ⊂ p.2 := by
            refine Finset.ssubset_iff_of_subset Finset.sdiff_subset |>.mpr ?_
            exact ⟨x, hx, fun hmem => (Finset.mem_sdiff.mp hmem).2 hxt⟩
          have hlt : (p.2 \ t).card < p.2.card := Finset.card_lt_card hss
          have := dictMeasure_cleanup_le d t
          omega
        · have := ih hp2
          have hc : (q.2 \ t).card ≤ q.2.card :=
            Finset.card_le_card (Finset.sdiff_subset)
          omega

/-- A round whose wave is non-empty strictly decreases the measure. -/
lemma dictMeasure_cleanup_lt {d : List (α × Finset α)}
    (hw : nextWave d ≠ ∅) :
    dictMeasure (cleanup d (nextWave d)) < dictMeasure d := by
  obtain ⟨x, hx⟩ := Finset.nonempty_iff_ne_empty.mpr hw
  rcases mem_nextWave.mp hx with ⟨h1, _⟩ | ⟨p, hp, _, hpe⟩
  · obtain ⟨p, hp, hpx⟩ := mem_dictVU.mp h1
    exact dictMeasure_cleanup_lt_of_hit hp hpx hx
  · exact dictMeasure_cleanup_lt_of_empty hp hpe

/-- The sub-dictionary after a round has no new edges. -/
lemma depEdge_cleanup_sub {d : List (α × Finset α)} {t : Finset α} {a b : α}
    (h : depEdge (cleanup d t) a b) : depEdge d a b := by
  obtain ⟨q, hq, hqa, hqb, hbk⟩ := h
  simp only [cleanup, List.mem_map, List.mem_filter, decide_eq_true_eq] at hq
  obtain ⟨p, ⟨hp, hpe⟩, rfl⟩ := hq
  refine ⟨p, hp, hqa, (Finset.mem_sdiff.mp hqb).1, ?_⟩
  obtain ⟨q2, hq2, hq2b⟩ := mem_dictKeys_cleanup.mp hbk
  exact mem_dictKeys.mpr ⟨q2, hq2, hq2b.1⟩

lemma acyclic_cleanup {d : List (α × Finset α)} {t : Finset α}
    (h : Acyclic d) : Acyclic (cleanup d t) :=
  fun k hk => h k (hk.mono (fun _ _ => depEdge_cleanup_sub))

/-- A stuck round (non-empty dictionary, empty wave) exhibits a dependency
cycle among the keys. -/
lemma stuck_has_cycle {d : List (α × Finset α)} (hd : d ≠ [])
    (hw : nextWave d = ∅) : ∃ k, Relation.TransGen (depEdge d) k k := by
  have hnoempty : ∀ p ∈ d, p.2 ≠ ∅ := by
    intro p hp hpe
    have : p.1 ∈ nextWave d := mem_nextWave.mpr (Or.inr ⟨p, hp, rfl, hpe⟩)
    simp [hw] at this
  have hVU : ∀ x, x ∈ dictVU d → x ∈ dictKeys d := by
    intro x hx
    by_contra hxk
    have : x ∈ nextWave d := mem_nextWave.mpr (Or.inl ⟨hx, hxk⟩)
    simp [hw] at this
  have hstep : ∀ a ∈ dictKeys d, ∃ b, b ∈ dictKeys d ∧ depEdge d a b := by
    intro a ha
    obtain ⟨p, hp, hpa⟩ := mem_dictKeys.mp ha
    obtain ⟨b, hb⟩ := Finset.nonempty_iff_ne_empty.mpr (hnoempty p hp)
    have hbk : b ∈ dictKeys d := hVU b (mem_dictVU.mpr ⟨p, hp, hb⟩)
    exact ⟨b, hbk, ⟨p, hp, hpa, hb, hbk⟩⟩
  -- iterate the step function and apply the pigeonhole principle
  obtain ⟨p0, hp0⟩ := List.exists_mem_of_ne_nil d hd
  have hk0 : p0.1 ∈ dictKeys d := mem_dictKeys.mpr ⟨p0, hp0, rfl⟩
  obtain ⟨F, hF⟩ : ∃ F : {x // x ∈ dictKeys d} → {x // x ∈ dictKeys d},
      ∀ a, depEdge d a.1 (F a).1 := by
    refine ⟨fun a => ⟨(hstep a.1 a.2).choose, (hstep a.1 a.2).choose_spec.1⟩,
      fun a => (hstep a.1 a.2).choose_spec.2⟩
  set f : Nat → {x // x ∈ dictKeys d} := fun n => F^[n] ⟨p0.1, hk0⟩ with hf
  have hchain : ∀ n k, Relation.TransGen (depEdge d) (f n).1 (f (n + k + 1)).1 := by
    intro n k
    induction k with
    | zero =>
        have : f (n + 1) = F (f n) := by
          simp [hf, Function.iterate_succ_apply']
        rw [this]
        exact Relation.TransGen.single (hF (f n))
    | succ k ih =>
        have : f (n + (k + 1) + 1) = F (f (n + k + 1)) := by
          simp only [hf]
          rw [show n + (k + 1) + 1 = (n + k + 1) + 1 by omega,
            Function.iterate_succ_apply']
        rw [this]
        exact ih.tail (hF (f (n + k + 1)))
  obtain ⟨i, hi, j, hj, hij, hfij⟩ :=
    Finset.exists_ne_map_eq_of_card_lt_of_maps_to
      (s := Finset.range ((dictKeys d).card + 1)) (t := dictKeys d)
      (by simp) (fun i _ => (f i).2)
  rcases Nat.lt_or_ge i j with hlt | hge
  · refine ⟨(f j).1, ?_⟩
    have := hchain i (j - i - 1)
    rw [show i + (j - i - 1) + 1 = j by omega] at this
    rwa [hfij] at this
  · have hlt : j < i := by omega
    refine ⟨(f i).1, ?_⟩
    have := hchain j (i - j - 1)
    rw [show j + (i - j - 1) + 1 = i by omega] at this
    rwa [← hfij] at this

/-- On an acyclic dictionary the loop terminates. -/
lemma acyclic_terminates_aux :
    ∀ (m : Nat) (d : List (α × Finset α)), dictMeasure d < m → Acyclic d →
      ∃ n r, resolveFuel n d = some r := by
  intro m
  induction m with
  | zero => intro d hm; omega
  | succ m ih =>
      intro d hm hac
      by_cases hd : d = []
      · exact ⟨0, [], by simp [hd]⟩
      · have hw : nextWave d ≠ ∅ := by
          intro hstuck
          obtain ⟨k, hk⟩ := stuck_has_cycle hd hstuck
          exact hac k hk
        obtain ⟨n, r, hr⟩ := ih (cleanup d (nextWave d))
          (by have := dictMeasure_cleanup_lt hw; omega)
          (acyclic_cleanup hac)
        exact ⟨n + 1, nextWave d :: r, by rw [resolveFuel_succ n hd, hr]; rfl⟩

lemma acyclic_terminates {d : List (α × Finset α)} (hac : Acyclic d) :
    ∃ n r, resolveFuel n d = some r :=
  acyclic_terminates_aux (dictMeasure d + 1) d (by omega) hac

/-! ### Invariants of every terminating run

Whenever the loop terminates (with unique dictionary keys, as Python
guarantees), the returned waves are pairwise disjoint, cover exactly the
keys together with the union of all dependency sets, and each key-to-key
dependency lands in a strictly earlier wave than its dependent. -/

lemma mem_cleanup_of_mem {d : List (α × Finset α)} {t : Finset α}
    {p : α × Finset α} (hp : p ∈ d) (hpe : p.2 ≠ ∅) :
    (p.1, p.2 \ t) ∈ cleanup d t := by
  simp only [cleanup, List.mem_map, List.mem_filter, decide_eq_true_eq]
  exact ⟨p, ⟨hp, hpe⟩, rfl⟩

lemma run_inv :
    ∀ (n : Nat) {d : List (α × Finset α)} {r : List (Finset α)},
      (d.map Prod.fst).Nodup → resolveFuel n d = some r →
      (∀ w ∈ r, w ⊆ dictKeys d ∪ dictVU d) ∧
      List.Pairwise (fun a b : Finset α => Disjoint a b) r ∧
      (∀ x, x ∈ dictKeys d ∪ dictVU d → ∃ i : Fin r.length, x ∈ r.get i) ∧
      (∀ p ∈ d, ∀ i : Fin r.length, p.1 ∈ r.get i →
        ∀ x ∈ p.2, x ∈ dictKeys d →
          ∃ j : Fin r.length, (j : ℕ) < (i : ℕ) ∧ x ∈ r.get j) := by
  intro n
  induction n with
  | zero =>
      intro d r hnd h
      cases d with
      | nil =>
          simp only [resolveFuel_nil, Option.some.injEq] at h
          subst h
          refine ⟨by simp, by simp, ?_, by simp⟩
          intro x hx
          rcases Finset.mem_union.mp hx with hx | hx <;>
            simp [dictKeys, dictVU] at hx
      | cons p d0 => rw [resolveFuel_zero (by simp)] at h; cases h
  | succ n ih =>
      intro d r hnd h
      by_cases hd : d = []
      · subst hd
        simp only [resolveFuel_nil, Option.some.injEq] at h
        subst h
        refine ⟨by simp, by simp, ?_, by simp⟩
        intro x hx
        rcases Finset.mem_union.mp hx with hx | hx <;>
          simp [dictKeys, dictVU] at hx
      · rw [resolveFuel_succ n hd] at h
        obtain ⟨r0, hr0, rfl⟩ := Option.map_eq_some'.mp h
        set t := nextWave d with ht
        set d' := cleanup d t with hd'
        have hnd' : (d'.map Prod.fst).Nodup := keysNodup_cleanup hnd
        obtain ⟨ihA, ihB, ihC, ihD⟩ := ih hnd' hr0
        have ht_sub : t ⊆ dictKeys d ∪ dictVU d := by
          intro x hx
          rcases mem_nextWave.mp hx with ⟨h1, _⟩ | ⟨p, hp, hpx, _⟩
          · exact Finset.mem_union_right _ h1
          · exact Finset.mem_union_left _ (mem_dictKeys.mpr ⟨p, hp, hpx⟩)
        have hsub' : ∀ x, x ∈ dictKeys d' ∪ dictVU d' →
            x ∈ dictKeys d ∪ dictVU d := by
          intro x hx
          rcases Finset.mem_union.mp hx with hx | hx
          · obtain ⟨p, hp, hpx, _⟩ := mem_dictKeys_cleanup.mp hx
            exact Finset.mem_union_left _ (mem_dictKeys.mpr ⟨p, hp, hpx⟩)
          · exact Finset.mem_union_right _ ((mem_dictVU_cleanup.mp hx).1)
        have hdisj : ∀ x, x ∈ dictKeys d' ∪ dictVU d' → x ∉ t := by
          intro x hx
          rcases Finset.mem_union.mp hx with hx | hx
          · exact not_mem_wave_of_mem_keys_cleanup hnd hx
          · exact (mem_dictVU_cleanup.mp hx).2
        have hkeys' : ∀ x, x ∈ dictKeys d → x ∉ t → x ∈ dictKeys d' := by
          intro x hx hxt
          obtain ⟨q, hq, hqx⟩ := mem_dictKeys.mp hx
          by_cases hqe : q.2 = ∅
          · exact absurd (mem_nextWave.mpr (Or.inr ⟨q, hq, hqx, hqe⟩)) hxt
          · exact mem_dictKeys_cleanup.mpr ⟨q, hq, hqx, hqe⟩
        refine ⟨?_, ?_, ?_, ?_⟩
        · intro w hw
          rcases List.mem_cons.mp hw with rfl | hw0
          · exact ht_sub
          · exact fun x hx => hsub' x (ihA w hw0 hx)
        · refine List.pairwise_cons.mpr ⟨?_, ihB⟩
          intro w hw
          refine Finset.disjoint_left.mpr ?_
          intro a hat haw
          exact hdisj a (ihA w hw haw) hat
        · intro x hx
          by_cases hxt : x ∈ t
          · exact ⟨⟨0, Nat.succ_pos _⟩, hxt⟩
          · have hx' : x ∈ dictKeys d' ∪ dictVU d' := by
              rcases Finset.mem_union.mp hx with hx | hx
              · exact Finset.mem_union_left _ (hkeys' x hx hxt)
              · exact Finset.mem_union_right _
                  (mem_dictVU_cleanup.mpr ⟨hx, hxt⟩)
            obtain ⟨i0, hi0⟩ := ihC x hx'
            exact ⟨⟨i0.1 + 1, Nat.succ_lt_succ i0.2⟩, hi0⟩
        · rintro p hp ⟨iv, hiv⟩ hpi x hx hxk
          cases iv with
          | zero =>
              have hpt : p.1 ∈ t := hpi
              rcases mem_nextWave.mp hpt with ⟨_, h2⟩ | ⟨q, hq, hqx, hqe⟩
              · exact absurd (mem_dictKeys.mpr ⟨p, hp, rfl⟩) h2
              · have : p = q := eq_of_mem_of_keysNodup hnd hp hq hqx.symm
                rw [this, hqe] at hx
                cases Finset.not_mem_empty x hx
          | succ iv =>
              have hiv0 : iv < r0.length := Nat.lt_of_succ_lt_succ hiv
              have hpi0 : p.1 ∈ r0.get ⟨iv, hiv0⟩ := hpi
              have hpe : p.2 ≠ ∅ := by
                intro hpe
                have hpt : p.1 ∈ t :=
                  mem_nextWave.mpr (Or.inr ⟨p, hp, rfl, hpe⟩)
                have hmem : r0.get ⟨iv, hiv0⟩ ∈ r0 := List.get_mem r0 iv hiv0
                exact hdisj p.1 (ihA _ hmem hpi0) hpt
              by_cases hxt : x ∈ t
              · exact ⟨⟨0, Nat.succ_pos _⟩, Nat.succ_pos _, hxt⟩
              · have hp' : (p.1, p.2 \ t) ∈ d' := mem_cleanup_of_mem hp hpe
                have hx' : x ∈ p.2 \ t := Finset.mem_sdiff.mpr ⟨hx, hxt⟩
                have hxk' : x ∈ dictKeys d' := hkeys' x hxk hxt
                obtain ⟨⟨jv, hjv⟩, hjlt, hjx⟩ :=
                  ihD (p.1, p.2 \ t) hp' ⟨iv, hiv0⟩ hpi0 x hx' hxk'
                exact ⟨⟨jv + 1, Nat.succ_lt_succ hjv⟩,
                  Nat.succ_lt_succ hjlt, hjx⟩

lemma acyclic_of_no_edges {d : List (α × Finset α)}
    (h : ∀ a b, ¬ depEdge d a b) : Acyclic d := by
  intro k hk
  cases hk with
  | single h1 => exact h _ _ h1
  | tail _ h1 => exact h _ _ h1

/-! ### The resolver as a state machine over its local variables

For the frame property (the caller's `deplist` is never written) the function
body is embedded as a transition system over the variables `deplist`, `d`,
`r` of `resolve_dependencies`; mutation of any of them is representable as a
field update, and the theorem shows `deplist` is never updated: the first
line copies every entry (`initState`), each loop iteration only rebuilds `d`
and appends to `r` (`loopStep`). -/

structure ResolverState (α : Type _) where
  deplist : List (α × Finset α)
  d : List (α × Finset α)
  r : List (Finset α)
deriving DecidableEq

/-- `d = dict((k, set(deplist[k])) for k in deplist)` and `r = []`. -/
def initState (deplist : List (α × Finset α)) : ResolverState α :=
  { deplist := deplist, d := deplist.map (fun p => (p.1, p.2)), r := [] }

/-- One iteration of the loop body: compute `t`, `r.append(t)`, rebuild `d`. -/
def loopStep (s : ResolverState α) : ResolverState α :=
  { s with r := s.r ++ [nextWave s.d], d := cleanup s.d (nextWave s.d) }

/-- The `while d:` loop on the state, with fuel. -/
def runResolver : Nat → ResolverState α → Option (ResolverState α)
  | 0, s => if s.d.isEmpty then some s else none
  | n + 1, s => if s.d.isEmpty then some s else runResolver n (loopStep s)

/-! ### Claim theorems about the resolver -/

/-- The cyclic scenario `{A: {B}, B: {A}}` of the spec. -/
def cycAB : List (String × Finset String) := [("A", {"B"}), ("B", {"A"})]

/-- C1: the claim says that on a dependency mapping whose cycle is confined
to keys, `resolve_dependencies` terminates and reports a CycleError naming
the remaining keys. The code has no cycle detection at all: on
`{A: {B}, B: {A}}` the loop computes an empty wave, the cleanup leaves the
dictionary unchanged, and the `while` loop therefore never terminates — no
amount of fuel makes the loop finish. The spec itself flags this as a bug in
the source to be fixed, so the claim is right and the code is wrong. -/
theorem resolve_dependencies_cycle_nonterminating :
    nextWave cycAB = ∅ ∧ cleanup cycAB (nextWave cycAB) = cycAB ∧
    ∀ n, resolve_dependencies n cycAB = none := by
  have hc : cleanup cycAB (nextWave cycAB) = cycAB := by decide
  refine ⟨by decide, hc, ?_⟩
  intro n
  rw [resolve_dependencies_eq]
  induction n with
  | zero => exact resolveFuel_zero (by simp [cycAB])
  | succ n ih => rw [resolveFuel_succ n (by simp [cycAB]), hc, ih]; rfl

/-- C2 counterexample: on the acyclic mapping `{A: {X}}` the returned waves
are `[{X}, {A}]`, so their concatenation contains the non-key name `X` and
is not a permutation of the key set `{A}`. -/
theorem resolve_dependencies_concat_not_keys_perm :
    resolve_dependencies 2 [("A", ({"X"} : Finset String))]
        = some [{"X"}, {"A"}] ∧
    "X" ∈ List.headI [({"X"} : Finset String), {"A"}] ∧
    "X" ∉ dictKeys [("A", ({"X"} : Finset String))] :=
  ⟨by decide, by decide, by decide⟩

/-- C2 (amended): on every dependency mapping (with unique keys, as a Python
dict guarantees) that has no dependency cycle among its keys,
`resolve_dependencies` terminates, the returned waves are pairwise disjoint,
their union is exactly the keys together with all referenced dependency
names (not the keys alone: names that are not keys are emitted too), every
key lies in exactly one wave, and every dependency of a key that is itself a
key lies in a wave with a strictly smaller index than its dependent. -/
theorem resolve_dependencies_acyclic_waves
    (d : List (String × Finset String))
    (hnd : (d.map Prod.fst).Nodup) (hac : Acyclic d) :
    ∃ n r, resolve_dependencies n d = some r ∧
      List.Pairwise (fun a b : Finset String => Disjoint a b) r ∧
      (∀ x, (∃ i : Fin r.length, x ∈ r.get i) ↔ x ∈ dictKeys d ∪ dictVU d) ∧
      (∀ k ∈ dictKeys d, ∃ i : Fin r.length, k ∈ r.get i ∧
        ∀ j : Fin r.length, k ∈ r.get j → j = i) ∧
      (∀ p ∈ d, ∀ i : Fin r.length, p.1 ∈ r.get i →
        ∀ x ∈ p.2, x ∈ dictKeys d →
          ∃ j : Fin r.length, (j : ℕ) < (i : ℕ) ∧ x ∈ r.get j) := by
  obtain ⟨n, r, hr⟩ := acyclic_terminates hac
  obtain ⟨hA, hB, hC, hD⟩ := run_inv n hnd hr
  have hget : ∀ i : Fin r.length, r.get i ∈ r := fun i => List.get_mem r i.1 i.2
  refine ⟨n, r, by rw [resolve_dependencies_eq]; exact hr, hB, ?_, ?_, hD⟩
  · intro x
    exact ⟨fun ⟨i, hi⟩ => hA _ (hget i) hi, hC x⟩
  · intro k hk
    obtain ⟨i, hi⟩ := hC k (Finset.mem_union_left _ hk)
    refine ⟨i, hi, ?_⟩
    intro j hj
    by_contra hne
    have hpw := List.pairwise_iff_get.mp hB
    rcases lt_trichotomy j i with hlt | heq | hlt
    · exact Finset.disjoint_left.mp (hpw j i hlt) hj hi
    · exact hne heq
    · exact Finset.disjoint_left.mp (hpw i j hlt) hi hj

/-- Witness for C2 at the concrete acyclic input `{A: {}}`. -/
theorem resolve_dependencies_acyclic_waves_witness :
    ((([("A", (∅ : Finset String))].map Prod.fst).Nodup ∧
      Acyclic [("A", (∅ : Finset String))]) ∧
    ∃ n r, resolve_dependencies n [("A", (∅ : Finset String))] = some r ∧
      List.Pairwise (fun a b : Finset String => Disjoint a b) r ∧
      (∀ x, (∃ i : Fin r.length, x ∈ r.get i) ↔
        x ∈ dictKeys [("A", (∅ : Finset String))] ∪
          dictVU [("A", (∅ : Finset String))]) ∧
      (∀ k ∈ dictKeys [("A", (∅ : Finset String))],
        ∃ i : Fin r.length, k ∈ r.get i ∧
          ∀ j : Fin r.length, k ∈ r.get j → j = i) ∧
      (∀ p ∈ [("A", (∅ : Finset String))], ∀ i : Fin r.length,
        p.1 ∈ r.get i → ∀ x ∈ p.2,
          x ∈ dictKeys [("A", (∅ : Finset String))] →
            ∃ j : Fin r.length, (j : ℕ) < (i : ℕ) ∧ x ∈ r.get j)) := by
  have hac : Acyclic [("A", (∅ : Finset String))] := by
    apply acyclic_of_no_edges
    rintro a b ⟨p, hp, _, hb, _⟩
    simp only [List.mem_singleton] at hp
    subst hp
    simp at hb
  exact ⟨⟨by decide, hac⟩,
    resolve_dependencies_acyclic_waves [("A", (∅ : Finset String))] (by decide) hac⟩

/-- C3 counterexample: on `{A: {X}}` with `X` not a key, the waves are
`[{X}, {A}]` and not `[{A}]`: the non-key name `X` does appear in a wave
(the import loop later skips such names with a warning when the filepath
lookup fails). -/
theorem resolve_dependencies_external_emitted :
    resolve_dependencies 2 [("A", ({"X"} : Finset String))]
        = some [{"X"}, {"A"}] ∧
    resolve_dependencies 2 [("A", ({"X"} : Finset String))]
        ≠ some [({"A"} : Finset String)] ∧
    (∃ w ∈ [({"X"} : Finset String), {"A"}], "X" ∈ w) ∧
    "X" ∉ dictKeys [("A", ({"X"} : Finset String))] :=
  ⟨by decide, by decide, by decide, by decide⟩

/-- C3 (amended): a name occurring only inside dependency sets and not as a
key is emitted rather than suppressed: whenever the resolver terminates it
appears in the very first wave; in particular `{A: {X}}` yields the waves
`[{X}, {A}]`, not `[{A}]`. -/
theorem resolve_dependencies_external_in_first_wave :
    (∀ (d : List (String × Finset String)) (n : Nat) (r : List (Finset String)),
      resolve_dependencies n d = some r →
      ∀ x ∈ dictVU d, x ∉ dictKeys d → x ∈ r.headI) ∧
    resolve_dependencies 2 [("A", ({"X"} : Finset String))]
        = some [{"X"}, {"A"}] := by
  constructor
  · intro d n r h x hx hxk
    rw [resolve_dependencies_eq] at h
    have hd : d ≠ [] := by
      rintro rfl
      simp [dictVU] at hx
    cases n with
    | zero => rw [resolveFuel_zero hd] at h; cases h
    | succ n =>
        rw [resolveFuel_succ n hd] at h
        obtain ⟨r0, _, rfl⟩ := Option.map_eq_some'.mp h
        exact mem_nextWave.mpr (Or.inl ⟨hx, hxk⟩)
  · decide

/-- Witness for C3 at the concrete input `{A: {X}}`. -/
theorem resolve_dependencies_external_in_first_wave_witness :
    (resolve_dependencies 2 [("A", ({"X"} : Finset String))]
        = some [{"X"}, {"A"}] ∧
      "X" ∈ dictVU [("A", ({"X"} : Finset String))] ∧
      "X" ∉ dictKeys [("A", ({"X"} : Finset String))]) ∧
    "X" ∈ List.headI [({"X"} : Finset String), {"A"}] :=
  ⟨⟨by decide, by decide, by decide⟩,
    resolve_dependencies_external_in_first_wave.1
      [("A", ({"X"} : Finset String))] 2 [{"X"}, {"A"}] (by decide) "X"
      (by decide) (by decide)⟩

/-- C9: `resolve_dependencies` never mutates its argument. In the state
machine embedding of the function body, every completed run leaves the
caller's `deplist` exactly as it was: the first line copies the entries into
the local `d`, and every loop iteration rebuilds only `d` and `r`. -/
theorem resolve_dependencies_preserves_caller (fuel : Nat)
    (s s2 : ResolverState String) (h : runResolver fuel s = some s2) :
    s2.deplist = s.deplist := by
  induction fuel generalizing s with
  | zero =>
      unfold runResolver at h
      split at h
      · cases h; rfl
      · cases h
  | succ n ih =>
      unfold runResolver at h
      split at h
      · cases h; rfl
      · exact ih (loopStep s) h

/-- Witness for C9: a complete run on the mapping `{A: {}}`. -/
theorem resolve_dependencies_preserves_caller_witness :
    runResolver 2 (initState [("A", (∅ : Finset String))]) =
      some { deplist := [("A", (∅ : Finset String))], d := [], r := [{"A"}] } ∧
    ResolverState.deplist
        { deplist := [("A", (∅ : Finset String))], d := [], r := [{"A"}] } =
      (initState [("A", (∅ : Finset String))]).deplist :=
  ⟨by decide, resolve_dependencies_preserves_caller 2 _ _ (by decide)⟩

/-! ## Paths, `construct_commit_msg` (lines 379-401) and
`git_commit_and_push` (lines 403-426)

Python source of `construct_commit_msg`:
```
status_str = {GIT_STATUS_INDEX_NEW: "Added ", GIT_STATUS_INDEX_MODIFIED:
              "Updated ", GIT_STATUS_INDEX_DELETED: "Removed "}
status_str2 = {GIT_STATUS_INDEX_NEW: " additions", GIT_STATUS_INDEX_MODIFIED:
               " updates", GIT_STATUS_INDEX_DELETED: " removals"}
commit_msg = ''
if len(changes) > 1:
    commit_msg = "Performed %d" % len(changes)
    commit_msg += status_str2[changes[0][1]] \
                  if len(set([flags for filepath, flags in changes])) == 1 \
                  else " changes"
    common_path = os.path.commonpath([filepath for filepath, flags in changes])
    commit_msg += " in %s hostgroup\n\n" % common_path if common_path else "\n\n"
for c in changes:
    commit_msg += status_str[c[1]] + os.path.basename(c[0]).replace('.json', '') + '\n'
return commit_msg
```
Status flags are the `pygit2`/libgit2 bit values. Dictionary lookups with a
missing key raise `KeyError`; `os.path.commonpath` raises `ValueError` on an
empty sequence or when absolute and relative paths are mixed. -/

def GIT_STATUS_CURRENT : Nat := 0

def GIT_STATUS_INDEX_NEW : Nat := 1

def GIT_STATUS_INDEX_MODIFIED : Nat := 2

def GIT_STATUS_INDEX_DELETED : Nat := 4

def GIT_STATUS_WT_NEW : Nat := 128

def GIT_STATUS_WT_MODIFIED : Nat := 256

def GIT_STATUS_WT_DELETED : Nat := 512

/-- Python exceptions raised by the embedded functions. -/
inductive PyErr where
  | keyError (flag : Nat)
  | valueError
deriving DecidableEq

deriving instance DecidableEq for Except

/-! The Python string operations used by the source (`str.split`,
`str.replace`, slicing, `os.path` helpers) are implemented structurally on
character lists so that every evaluation reduces in the kernel. -/

/-- Whether the first character list is a prefix of the second. -/
def isPrefL : List Char → List Char → Bool
  | [], _ => true
  | _ :: _, [] => false
  | p :: ps, c :: cs => decide (p = c) && isPrefL ps cs

/-- Whether `pat` occurs as a contiguous substring. -/
def hasSubL (pat : List Char) : List Char → Bool
  | [] => isPrefL pat []
  | c :: cs => isPrefL pat (c :: cs) || hasSubL pat cs

/-- Whether `pat` occurs as a contiguous substring of `s`. -/
def strHasSub (s pat : String) : Bool := hasSubL pat.data s.data

/-- `str.split(sep)` for a one-character separator. -/
def splitOnChar (sep : Char) : List Char → List (List Char)
  | [] => [[]]
  | c :: cs =>
      if c = sep then [] :: splitOnChar sep cs
      else
        match splitOnChar sep cs with
        | [] => [[c]]
        | w :: ws => (c :: w) :: ws

/-- `str.replace(pat, rep)` (all non-overlapping occurrences, left to
right), with explicit fuel to keep the recursion structural; one character
at least is consumed per step, so `s.length` fuel always suffices. -/
def replaceFuel (pat rep : List Char) : Nat → List Char → List Char
  | _, [] => []
  | 0, s => s
  | n + 1, c :: cs =>
      if isPrefL pat (c :: cs) && decide (pat ≠ []) then
        rep ++ replaceFuel pat rep n (List.drop (pat.length - 1) cs)
      else c :: replaceFuel pat rep n cs

/-- `s.replace(pat, rep)`. -/
def pyReplace (s pat rep : String) : String :=
  String.mk (replaceFuel pat.data rep.data s.data.length s.data)

/-- `os.path.basename`: the part after the final slash. -/
def basename (p : String) : String :=
  String.mk ((splitOnChar '/' p.data).getLastD [])

/-- Path components as `posixpath.commonpath` uses them: split on the
separator, dropping empty components and the current-directory marker. -/
def splitComps (p : String) : List (List Char) :=
  (splitOnChar '/' p.data).filter (fun c => decide (c ≠ [] ∧ c ≠ ['.']))

/-- Longest common prefix of two component lists. `posixpath.commonpath`
takes the common prefix of the lexicographically smallest and largest
component lists, which equals folding this binary common prefix over all of
them. -/
def lcp : List (List Char) → List (List Char) → List (List Char)
  | a :: as, b :: bs => if a = b then a :: lcp as bs else []
  | _, _ => []

/-- `p[:1] == sep`: whether the path is absolute. -/
def isAbsPath (p : String) : Bool := isPrefL ['/'] p.data

/-- Join components with the separator. -/
def joinSep (sep : Char) : List (List Char) → List Char
  | [] => []
  | [w] => w
  | w :: ws => w ++ sep :: joinSep sep ws

/-- `os.path.commonpath(paths)`: `ValueError` on an empty sequence or when
absolute and relative paths are mixed, else the joined common components. -/
def commonpath (paths : List String) : Except PyErr String :=
  match paths with
  | [] => Except.error PyErr.valueError
  | p :: ps =>
      if ps.any (fun q => decide (isAbsPath q ≠ isAbsPath p)) then
        Except.error PyErr.valueError
      else
        Except.ok (String.mk ((if isAbsPath p then ['/'] else []) ++
          joinSep '/'
            (ps.foldl (fun acc q => lcp acc (splitComps q)) (splitComps p))))

/-- The dict `status_str`; a missing key raises `KeyError`. -/
def status_str (flag : Nat) : Except PyErr String :=
  if flag = GIT_STATUS_INDEX_NEW then Except.ok "Added "
  else if flag = GIT_STATUS_INDEX_MODIFIED then Except.ok "Updated "
  else if flag = GIT_STATUS_INDEX_DELETED then Except.ok "Removed "
  else Except.error (PyErr.keyError flag)

/-- The dict `status_str2`; a missing key raises `KeyError`. -/
def status_str2 (flag : Nat) : Except PyErr String :=
  if flag = GIT_STATUS_INDEX_NEW then Except.ok " additions"
  else if flag = GIT_STATUS_INDEX_MODIFIED then Except.ok " updates"
  else if flag = GIT_STATUS_INDEX_DELETED then Except.ok " removals"
  else Except.error (PyErr.keyError flag)

/-- The `for c in changes:` loop appending one line per change:
`status_str[c[1]] + os.path.basename(c[0]).replace('.json', '') + '\n'`. -/
def appendLines (acc : String) : List (String × Nat) → Except PyErr String
  | [] => Except.ok acc
  | c :: cs => do
      let verb ← status_str c.2
      appendLines (acc ++ verb ++ pyReplace (basename c.1) ".json" "" ++ "\n") cs

/-- `construct_commit_msg(changes)` on the filtered change list
`[(filepath, flags)]`. -/
def construct_commit_msg (changes : List (String × Nat)) :
    Except PyErr String := do
  let headline ←
    if changes.length > 1 then do
      let word ←
        if ((changes.map (fun c => c.2)).dedup).length = 1 then
          status_str2 (changes.headI).2
        else Except.ok " changes"
      let cp ← commonpath (changes.map (fun c => c.1))
      Except.ok ("Performed " ++ toString changes.length ++ word ++
        (if cp ≠ "" then " in " ++ cp ++ " hostgroup\n\n" else "\n\n"))
    else Except.ok ""
  appendLines headline changes

/-- Effects `git_commit_and_push` performs on the repository. -/
inductive GitOp where
  | createCommit (msg : String)
  | push
deriving DecidableEq

/-- `git_commit_and_push(repo)` as a function from the `repo.status()`
items to the list of git effects performed: the change list is filtered
against `GIT_STATUS_CURRENT`; only a non-empty filtered list leads to
`create_commit` followed by `push`. -/
def git_commit_and_push (status : List (String × Nat)) :
    Except PyErr (List GitOp) :=
  let changes := status.filter (fun p => decide (p.2 ≠ GIT_STATUS_CURRENT))
  if changes.isEmpty then Except.ok []
  else do
    let msg ← construct_commit_msg changes
    Except.ok [GitOp.createCommit msg, GitOp.push]

/-! ### Substring occurrence, to state what a message mentions -/

lemma isPrefL_iff (p s : List Char) :
    isPrefL p s = true ↔ ∃ r, s = p ++ r := by
  induction p generalizing s with
  | nil => simp [isPrefL]
  | cons a p ih =>
      cases s with
      | nil => simp [isPrefL]
      | cons c cs =>
          simp only [isPrefL, Bool.and_eq_true, decide_eq_true_eq, ih]
          constructor
          · rintro ⟨rfl, r, rfl⟩
            exact ⟨r, by simp⟩
          · rintro ⟨r, hr⟩
            simp only [List.cons_append] at hr
            injection hr with h1 h2
            exact ⟨h1.symm, r, h2⟩

lemma hasSubL_iff (pat s : List Char) :
    hasSubL pat s = true ↔ ∃ l r, s = l ++ pat ++ r := by
  induction s with
  | nil =>
      simp only [hasSubL, isPrefL_iff]
      constructor
      · rintro ⟨r, hr⟩
        exact ⟨[], r, by simpa using hr⟩
      · rintro ⟨l, r, hr⟩
        have h1 := List.append_eq_nil.mp hr.symm
        have h2 := List.append_eq_nil.mp h1.1
        exact ⟨[], by simp [h2.2]⟩
  | cons c cs ih =>
      simp only [hasSubL, Bool.or_eq_true, isPrefL_iff, ih]
      constructor
      · rintro (⟨r, hr⟩ | ⟨l, r, hr⟩)
        · exact ⟨[], r, by simpa using hr⟩
        · exact ⟨c :: l, r, by simp [hr]⟩
      · rintro ⟨l, r, hr⟩
        cases l with
        | nil => exact Or.inl ⟨r, by simpa using hr⟩
        | cons a l =>
            simp only [List.cons_append] at hr
            injection hr with h1 h2
            exact Or.inr ⟨l, r, h2⟩

lemma strHasSub_iff (s pat : String) :
    strHasSub s pat = true ↔ ∃ l r : List Char, s.data = l ++ pat.data ++ r :=
  hasSubL_iff pat.data s.data

/-- The lines of a message (split at the newline characters). -/
def msgLines (s : String) : List String :=
  (splitOnChar (Char.ofNat 10) s.data).map String.mk

/-! ### Success and failure of the commit message construction -/

lemma status_str_ok {f : Nat}
    (hf : f ∈ ([GIT_STATUS_INDEX_NEW, GIT_STATUS_INDEX_MODIFIED,
      GIT_STATUS_INDEX_DELETED] : List Nat)) :
    ∃ s, status_str f = Except.ok s := by
  simp only [List.mem_cons, List.not_mem_nil, or_false] at hf
  rcases hf with rfl | rfl | rfl <;> exact ⟨_, rfl⟩

lemma status_str2_ok {f : Nat}
    (hf : f ∈ ([GIT_STATUS_INDEX_NEW, GIT_STATUS_INDEX_MODIFIED,
      GIT_STATUS_INDEX_DELETED] : List Nat)) :
    ∃ s, status_str2 f = Except.ok s := by
  simp only [List.mem_cons, List.not_mem_nil, or_false] at hf
  rcases hf with rfl | rfl | rfl <;> exact ⟨_, rfl⟩

lemma status_str2_bad {f : Nat}
    (hf : f ∉ ([GIT_STATUS_INDEX_NEW, GIT_STATUS_INDEX_MODIFIED,
      GIT_STATUS_INDEX_DELETED] : List Nat)) :
    status_str2 f = Except.error (PyErr.keyError f) := by
  simp only [List.mem_cons, List.not_mem_nil, or_false, not_or] at hf
  obtain ⟨h1, h2, h4⟩ := hf
  simp [status_str2, h1, h2, h4]

lemma status_str_bad {f : Nat}
    (hf : f ∉ ([GIT_STATUS_INDEX_NEW, GIT_STATUS_INDEX_MODIFIED,
      GIT_STATUS_INDEX_DELETED] : List Nat)) :
    status_str f = Except.error (PyErr.keyError f) := by
  simp only [List.mem_cons, List.not_mem_nil, or_false, not_or] at hf
  obtain ⟨h1, h2, h4⟩ := hf
  simp [status_str, h1, h2, h4]

lemma appendLines_ok :
    ∀ (l : List (String × Nat)) (acc : String),
      (∀ c ∈ l, c.2 ∈ ([GIT_STATUS_INDEX_NEW, GIT_STATUS_INDEX_MODIFIED,
        GIT_STATUS_INDEX_DELETED] : List Nat)) →
      ∃ out, appendLines acc l = Except.ok out := by
  intro l
  induction l with
  | nil => exact fun acc _ => ⟨acc, rfl⟩
  | cons c cs ih =>
      intro acc hf
      obtain ⟨verb, hverb⟩ := status_str_ok (hf c (by simp))
      obtain ⟨out, hout⟩ :=
        ih (acc ++ verb ++ pyReplace (basename c.1) ".json" "" ++ "\n")
          (fun x hx => hf x (by simp [hx]))
      refine ⟨out, ?_⟩
      simp only [appendLines, hverb]
      exact hout

lemma appendLines_bad :
    ∀ (l : List (String × Nat)) (acc : String),
      (∃ c ∈ l, c.2 ∉ ([GIT_STATUS_INDEX_NEW, GIT_STATUS_INDEX_MODIFIED,
        GIT_STATUS_INDEX_DELETED] : List Nat)) →
      ∃ f, appendLines acc l = Except.error (PyErr.keyError f) ∧
        f ∉ ([GIT_STATUS_INDEX_NEW, GIT_STATUS_INDEX_MODIFIED,
          GIT_STATUS_INDEX_DELETED] : List Nat) := by
  intro l
  induction l with
  | nil => rintro acc ⟨c, hc, _⟩; cases hc
  | cons c cs ih =>
      intro acc hbad
      by_cases hc : c.2 ∈ ([GIT_STATUS_INDEX_NEW, GIT_STATUS_INDEX_MODIFIED,
          GIT_STATUS_INDEX_DELETED] : List Nat)
      · have hbad2 : ∃ x ∈ cs, x.2 ∉ ([GIT_STATUS_INDEX_NEW,
            GIT_STATUS_INDEX_MODIFIED, GIT_STATUS_INDEX_DELETED] : List Nat) := by
          obtain ⟨x, hx, hxbad⟩ := hbad
          rcases List.mem_cons.mp hx with rfl | hx2
          · exact absurd hc hxbad
          · exact ⟨x, hx2, hxbad⟩
        obtain ⟨verb, hverb⟩ := status_str_ok hc
        obtain ⟨f, hf, hfbad⟩ :=
          ih (acc ++ verb ++ pyReplace (basename c.1) ".json" "" ++ "\n") hbad2
        refine ⟨f, ?_, hfbad⟩
        simp only [appendLines, hverb]
        exact hf
      · refine ⟨c.2, ?_, hc⟩
        simp only [appendLines, status_str_bad hc]
        rfl

lemma commonpath_ok {paths : List String} (hne : paths ≠ [])
    (hrel : ∀ p ∈ paths, isAbsPath p = false) :
    ∃ s, commonpath paths = Except.ok s := by
  cases paths with
  | nil => exact absurd rfl hne
  | cons p ps =>
      have hany : (ps.any (fun q => decide (isAbsPath q ≠ isAbsPath p))) = false := by
        rw [List.any_eq_false]
        intro q hq
        simp [hrel q (by simp [hq]), hrel p (by simp)]
      have hp : isAbsPath p = false := hrel p (by simp)
      refine ⟨String.mk (joinSep '/'
        (ps.foldl (fun acc q => lcp acc (splitComps q)) (splitComps p))), ?_⟩
      simp [commonpath, hany, hp]
      intro x hx
      exact hrel x (by simp [hx])

lemma all_eq_of_dedup_length_one {l : List Nat} (h : l.dedup.length = 1) :
    ∀ x ∈ l, ∀ y ∈ l, x = y := by
  obtain ⟨a, ha⟩ := List.length_eq_one.mp h
  intro x hx y hy
  have hx2 : x ∈ l.dedup := List.mem_dedup.mpr hx
  have hy2 : y ∈ l.dedup := List.mem_dedup.mpr hy
  rw [ha] at hx2 hy2
  simp only [List.mem_singleton] at hx2 hy2
  rw [hx2, hy2]

lemma headI_mem {l : List (String × Nat)} (h : l ≠ []) : l.headI ∈ l := by
  cases l with
  | nil => exact absurd rfl h
  | cons c cs => simp

/-- With a non-empty change list, all status flags among the three index
statuses and no mixing of absolute and relative paths, the message
construction succeeds. -/
lemma construct_commit_msg_ok {changes : List (String × Nat)}
    (hne : changes ≠ [])
    (hf : ∀ c ∈ changes, c.2 ∈ ([GIT_STATUS_INDEX_NEW,
      GIT_STATUS_INDEX_MODIFIED, GIT_STATUS_INDEX_DELETED] : List Nat))
    (hrel : ∀ c ∈ changes, isAbsPath c.1 = false) :
    ∃ msg, construct_commit_msg changes = Except.ok msg := by
  have hcp : ∃ cp, commonpath (changes.map (fun c => c.1)) = Except.ok cp := by
    refine commonpath_ok (by simpa using hne) ?_
    intro q hq
    obtain ⟨c, hc, rfl⟩ := List.mem_map.mp hq
    exact hrel c hc
  obtain ⟨cp, hcp⟩ := hcp
  by_cases hlen : changes.length > 1
  · by_cases hded : ((changes.map (fun c => c.2)).dedup).length = 1
    · obtain ⟨w, hw⟩ := status_str2_ok (hf _ (headI_mem hne))
      obtain ⟨out, hout⟩ := appendLines_ok changes
        ("Performed " ++ toString changes.length ++ w ++
          (if cp ≠ "" then " in " ++ cp ++ " hostgroup\n\n" else "\n\n")) hf
      refine ⟨out, ?_⟩
      simp only [construct_commit_msg]
      rw [if_pos hlen, if_pos hded, hw, hcp]
      exact hout
    · obtain ⟨out, hout⟩ := appendLines_ok changes
        ("Performed " ++ toString changes.length ++ " changes" ++
          (if cp ≠ "" then " in " ++ cp ++ " hostgroup\n\n" else "\n\n")) hf
      refine ⟨out, ?_⟩
      simp only [construct_commit_msg]
      rw [if_pos hlen, if_neg hded, hcp]
      exact hout
  · obtain ⟨out, hout⟩ := appendLines_ok changes "" hf
    refine ⟨out, ?_⟩
    simp only [construct_commit_msg]
    rw [if_neg hlen]
    exact hout

/-- The per-change loop only appends: running it from any accumulator
prefixes the accumulator to the lines it would produce from the empty
accumulator (and fails identically). -/
lemma appendLines_shift :
    ∀ (l : List (String × Nat)) (acc1 acc2 : String),
      appendLines (acc1 ++ acc2) l
        = (appendLines acc2 l).map (fun s => acc1 ++ s) := by
  intro l
  induction l with
  | nil => intro acc1 acc2; rfl
  | cons c cs ih =>
      intro acc1 acc2
      simp only [appendLines]
      cases hs : status_str c.2 with
      | error e => rfl
      | ok verb =>
          show appendLines
              (acc1 ++ acc2 ++ verb ++ pyReplace (basename c.1) ".json" "" ++ "\n") cs
            = (appendLines
                (acc2 ++ verb ++ pyReplace (basename c.1) ".json" "" ++ "\n") cs).map
                (fun s => acc1 ++ s)
          rw [show acc1 ++ acc2 ++ verb ++ pyReplace (basename c.1) ".json" "" ++ "\n"
              = acc1 ++ (acc2 ++ verb ++ pyReplace (basename c.1) ".json" "" ++ "\n") by
            simp only [String.append_assoc]]
          exact ih acc1 _

lemma appendLines_decomp (l : List (String × Nat)) (acc : String) :
    appendLines acc l = (appendLines "" l).map (fun s => acc ++ s) := by
  have h := appendLines_shift l acc ""
  rwa [String.append_empty] at h

/-- `len(set(flags)) == 1` says exactly that every change carries the same
status flag as the first change. -/
lemma flags_dedup_iff (changes : List (String × Nat)) (hne : changes ≠ []) :
    ((changes.map (fun c => c.2)).dedup).length = 1 ↔
      ∀ c ∈ changes, c.2 = (changes.headI).2 := by
  obtain ⟨c0, cs, rfl⟩ : ∃ c0 cs, changes = c0 :: cs := by
    cases changes with
    | nil => exact absurd rfl hne
    | cons c0 cs => exact ⟨c0, cs, rfl⟩
  constructor
  · intro h c hc
    exact all_eq_of_dedup_length_one h _ (List.mem_map.mpr ⟨c, hc, rfl⟩)
      _ (List.mem_map.mpr ⟨c0, by simp, rfl⟩)
  · intro h
    have hall : ∀ x ∈ (c0 :: cs).map (fun c => c.2), x = c0.2 := by
      intro x hx
      obtain ⟨c, hc, rfl⟩ := List.mem_map.mp hx
      exact h c hc
    have hmem : c0.2 ∈ ((c0 :: cs).map (fun c => c.2)).dedup :=
      List.mem_dedup.mpr (by simp)
    have hnd := List.nodup_dedup ((c0 :: cs).map (fun c => c.2))
    cases hd : ((c0 :: cs).map (fun c => c.2)).dedup with
    | nil => rw [hd] at hmem; cases hmem
    | cons b bs =>
        cases bs with
        | nil => rfl
        | cons b2 bs2 =>
            rw [hd, List.nodup_cons] at hnd
            have hb : b = c0.2 := hall b (List.mem_dedup.mp (by rw [hd]; simp))
            have hb2 : b2 = c0.2 := hall b2 (List.mem_dedup.mp (by rw [hd]; simp))
            exact absurd (show b ∈ b2 :: bs2 by rw [hb, ← hb2]; simp) hnd.1

/-! ### Claim theorems about the commit message and the commit decision -/

/-- C6 counterexample: the change list `[(a/x.json, Added), (b/y.json,
Added)]` has no shared parent path (`commonpath` is empty), yet the headline
reads `Performed 2 additions` and the word `changes` occurs nowhere in the
message: the generic word is driven by status homogeneity, not by the
paths. -/
theorem construct_commit_msg_scope_not_generic :
    construct_commit_msg
        [("a/x.json", GIT_STATUS_INDEX_NEW), ("b/y.json", GIT_STATUS_INDEX_NEW)]
      = Except.ok "Performed 2 additions\n\nAdded x\nAdded y\n" ∧
    commonpath ["a/x.json", "b/y.json"] = Except.ok "" ∧
    ¬ ∃ l r : List Char,
      ("Performed 2 additions\n\nAdded x\nAdded y\n").data
        = l ++ (" changes").data ++ r := by
  refine ⟨by decide, by decide, ?_⟩
  intro h
  exact absurd
    ((strHasSub_iff "Performed 2 additions\n\nAdded x\nAdded y\n" " changes").mpr h)
    (by decide)

/-- C6 (amended): for every change list with more than one change, all flags
among the three index statuses and uniformly relative paths, the message is
the headline followed by the per-change lines, and the headline is
`Performed <n>` + word + scope where: the word is the pluralized status word
(never the word `changes`) exactly when all changes share one status flag,
and the generic ` changes` otherwise — independent of the paths — while the
scope suffix ` in <path> hostgroup` names the common parent path exactly
when that path is non-empty. Concretely, two same-status changes with no
shared parent give `Performed 2 additions` (no scope, no word `changes`) and
two different-status changes sharing the parent `path` give
`Performed 2 changes in path hostgroup`. -/
theorem construct_commit_msg_headline_rules :
    (∀ changes : List (String × Nat), changes.length > 1 →
      (∀ c ∈ changes, c.2 ∈ ([GIT_STATUS_INDEX_NEW, GIT_STATUS_INDEX_MODIFIED,
        GIT_STATUS_INDEX_DELETED] : List Nat)) →
      (∀ c ∈ changes, isAbsPath c.1 = false) →
      ∃ cp word body,
        commonpath (changes.map (fun c => c.1)) = Except.ok cp ∧
        appendLines "" changes = Except.ok body ∧
        construct_commit_msg changes = Except.ok
          ("Performed " ++ toString changes.length ++ word ++
            (if cp ≠ "" then " in " ++ cp ++ " hostgroup\n\n" else "\n\n") ++ body) ∧
        ((∀ c ∈ changes, c.2 = (changes.headI).2) →
          status_str2 (changes.headI).2 = Except.ok word ∧ word ≠ " changes") ∧
        (¬ (∀ c ∈ changes, c.2 = (changes.headI).2) → word = " changes")) ∧
    construct_commit_msg
        [("a/x.json", GIT_STATUS_INDEX_NEW), ("b/y.json", GIT_STATUS_INDEX_NEW)]
      = Except.ok "Performed 2 additions\n\nAdded x\nAdded y\n" ∧
    commonpath ["a/x.json", "b/y.json"] = Except.ok "" ∧
    strHasSub "Performed 2 additions\n\nAdded x\nAdded y\n" " changes" = false ∧
    construct_commit_msg
        [("path/a.json", GIT_STATUS_INDEX_NEW),
         ("path/b.json", GIT_STATUS_INDEX_MODIFIED)]
      = Except.ok "Performed 2 changes in path hostgroup\n\nAdded a\nUpdated b\n" ∧
    commonpath ["path/a.json", "path/b.json"] = Except.ok "path" := by
  refine ⟨?_, by decide, by decide, by decide, by decide, by decide⟩
  intro changes hlen hf hrel
  have hne : changes ≠ [] := by
    intro h
    rw [h] at hlen
    simp at hlen
  have hcp : ∃ cp, commonpath (changes.map (fun c => c.1)) = Except.ok cp := by
    refine commonpath_ok (by simpa using hne) ?_
    intro q hq
    obtain ⟨c, hc, rfl⟩ := List.mem_map.mp hq
    exact hrel c hc
  obtain ⟨cp, hcp⟩ := hcp
  obtain ⟨body, hbody⟩ := appendLines_ok changes "" hf
  by_cases hded : ((changes.map (fun c => c.2)).dedup).length = 1
  · have hhom : ∀ c ∈ changes, c.2 = (changes.headI).2 :=
      (flags_dedup_iff changes hne).mp hded
    have hmem := hf _ (headI_mem hne)
    simp only [List.mem_cons, List.not_mem_nil, or_false] at hmem
    obtain ⟨w, hw, hwne⟩ : ∃ w, status_str2 (changes.headI).2 = Except.ok w ∧
        w ≠ " changes" := by
      rcases hmem with h1 | h1 | h1 <;> rw [h1] <;> exact ⟨_, rfl, by decide⟩
    refine ⟨cp, w, body, hcp, hbody, ?_, fun _ => ⟨hw, hwne⟩,
      fun hno => absurd hhom hno⟩
    simp only [construct_commit_msg]
    rw [if_pos hlen, if_pos hded, hw, hcp]
    have hdec := appendLines_decomp changes
      ("Performed " ++ toString changes.length ++ w ++
        (if cp ≠ "" then " in " ++ cp ++ " hostgroup\n\n" else "\n\n"))
    rw [hbody] at hdec
    exact hdec
  · have hnothom : ¬ ∀ c ∈ changes, c.2 = (changes.headI).2 :=
      fun hh => hded ((flags_dedup_iff changes hne).mpr hh)
    refine ⟨cp, " changes", body, hcp, hbody, ?_,
      fun hh => absurd hh hnothom, fun _ => rfl⟩
    simp only [construct_commit_msg]
    rw [if_pos hlen, if_neg hded, hcp]
    have hdec := appendLines_decomp changes
      ("Performed " ++ toString changes.length ++ " changes" ++
        (if cp ≠ "" then " in " ++ cp ++ " hostgroup\n\n" else "\n\n"))
    rw [hbody] at hdec
    exact hdec

/-- The heterogeneous two-change list sharing the parent `path`. -/
def heteroChanges : List (String × Nat) :=
  [("path/a.json", GIT_STATUS_INDEX_NEW), ("path/b.json", GIT_STATUS_INDEX_MODIFIED)]

/-- Witness for C6 at the heterogeneous list sharing the parent `path`. -/
theorem construct_commit_msg_headline_rules_witness :
    (heteroChanges.length > 1 ∧
      (∀ c ∈ heteroChanges, c.2 ∈ ([GIT_STATUS_INDEX_NEW,
        GIT_STATUS_INDEX_MODIFIED, GIT_STATUS_INDEX_DELETED] : List Nat)) ∧
      (∀ c ∈ heteroChanges, isAbsPath c.1 = false)) ∧
    ∃ cp word body,
      commonpath (heteroChanges.map (fun c => c.1)) = Except.ok cp ∧
      appendLines "" heteroChanges = Except.ok body ∧
      construct_commit_msg heteroChanges = Except.ok
        ("Performed " ++ toString heteroChanges.length ++ word ++
          (if cp ≠ "" then " in " ++ cp ++ " hostgroup\n\n" else "\n\n") ++ body) ∧
      ((∀ c ∈ heteroChanges, c.2 = (heteroChanges.headI).2) →
        status_str2 (heteroChanges.headI).2 = Except.ok word ∧ word ≠ " changes") ∧
      (¬ (∀ c ∈ heteroChanges, c.2 = (heteroChanges.headI).2) →
        word = " changes") :=
  ⟨⟨by decide, by decide, by decide⟩,
    construct_commit_msg_headline_rules.1 heteroChanges
      (by decide) (by decide) (by decide)⟩

/-- C7: on `[(path/a.json, Added), (path/b.json, Added)]` the headline
mentions the count `2` and the pluralized word `additions`, and the
per-change lines are exactly `Added a` and `Added b`; on a single change the
headline is omitted and the message is the bare per-change line. -/
theorem construct_commit_msg_two_additions :
    (construct_commit_msg
        [("path/a.json", GIT_STATUS_INDEX_NEW), ("path/b.json", GIT_STATUS_INDEX_NEW)]
      = Except.ok "Performed 2 additions in path hostgroup\n\nAdded a\nAdded b\n" ∧
     msgLines "Performed 2 additions in path hostgroup\n\nAdded a\nAdded b\n"
       = ["Performed 2 additions in path hostgroup", "", "Added a", "Added b", ""] ∧
     strHasSub "Performed 2 additions in path hostgroup" "2" = true ∧
     strHasSub "Performed 2 additions in path hostgroup" "additions" = true) ∧
    ∀ (p : String) (f : Nat),
      f ∈ ([GIT_STATUS_INDEX_NEW, GIT_STATUS_INDEX_MODIFIED,
        GIT_STATUS_INDEX_DELETED] : List Nat) →
      ∃ verb, status_str f = Except.ok verb ∧
        construct_commit_msg [(p, f)]
          = Except.ok (verb ++ pyReplace (basename p) ".json" "" ++ "\n") := by
  refine ⟨⟨by decide, by decide, by decide, by decide⟩, ?_⟩
  intro p f hf
  simp only [List.mem_cons, List.not_mem_nil, or_false] at hf
  rcases hf with rfl | rfl | rfl
  · exact ⟨"Added ", rfl, rfl⟩
  · exact ⟨"Updated ", rfl, rfl⟩
  · exact ⟨"Removed ", rfl, rfl⟩

/-- Witness for C7 on the single change `(path/a.json, Added)`. -/
theorem construct_commit_msg_two_additions_witness :
    ((GIT_STATUS_INDEX_NEW : Nat) ∈ ([GIT_STATUS_INDEX_NEW,
      GIT_STATUS_INDEX_MODIFIED, GIT_STATUS_INDEX_DELETED] : List Nat)) ∧
    ∃ verb, status_str GIT_STATUS_INDEX_NEW = Except.ok verb ∧
      construct_commit_msg [("path/a.json", GIT_STATUS_INDEX_NEW)]
        = Except.ok (verb ++ pyReplace (basename "path/a.json") ".json" "" ++ "\n") :=
  ⟨by decide,
    construct_commit_msg_two_additions.2 "path/a.json" GIT_STATUS_INDEX_NEW (by decide)⟩

/-- C8: `git_commit_and_push` creates a commit (and pushes) exactly when
some status entry differs from `GIT_STATUS_CURRENT`; if every entry is
current, the filtered change list is empty and no git effect at all is
performed. Stated for paths as `repo.status()` yields them (relative) and
flags in the change-record domain. -/
theorem git_commit_and_push_commit_iff_changes (status : List (String × Nat))
    (hflags : ∀ c ∈ status, c.2 ∈ ([GIT_STATUS_CURRENT, GIT_STATUS_INDEX_NEW,
      GIT_STATUS_INDEX_MODIFIED, GIT_STATUS_INDEX_DELETED] : List Nat))
    (hrel : ∀ c ∈ status, isAbsPath c.1 = false) :
    ((∃ c ∈ status, c.2 ≠ GIT_STATUS_CURRENT) →
      ∃ msg, git_commit_and_push status
        = Except.ok [GitOp.createCommit msg, GitOp.push]) ∧
    ((∀ c ∈ status, c.2 = GIT_STATUS_CURRENT) →
      git_commit_and_push status = Except.ok []) := by
  constructor
  · rintro ⟨c, hc, hc0⟩
    have hcmem : c ∈ status.filter (fun p => decide (p.2 ≠ GIT_STATUS_CURRENT)) :=
      List.mem_filter.mpr ⟨hc, by simpa using hc0⟩
    have hne : status.filter (fun p => decide (p.2 ≠ GIT_STATUS_CURRENT)) ≠ [] := by
      intro h
      rw [h] at hcmem
      cases hcmem
    have hflags2 : ∀ x ∈ status.filter (fun p => decide (p.2 ≠ GIT_STATUS_CURRENT)),
        x.2 ∈ ([GIT_STATUS_INDEX_NEW, GIT_STATUS_INDEX_MODIFIED,
          GIT_STATUS_INDEX_DELETED] : List Nat) := by
      intro x hx
      obtain ⟨hxs, hx0⟩ := List.mem_filter.mp hx
      have hx0 : x.2 ≠ GIT_STATUS_CURRENT := by simpa using hx0
      have hmem := hflags x hxs
      simp only [List.mem_cons, List.not_mem_nil, or_false] at hmem ⊢
      rcases hmem with h | h | h | h
      · exact absurd h hx0
      · exact Or.inl h
      · exact Or.inr (Or.inl h)
      · exact Or.inr (Or.inr h)
    have hrel2 : ∀ x ∈ status.filter (fun p => decide (p.2 ≠ GIT_STATUS_CURRENT)),
        isAbsPath x.1 = false :=
      fun x hx => hrel x (List.mem_filter.mp hx).1
    obtain ⟨msg, hmsg⟩ := construct_commit_msg_ok hne hflags2 hrel2
    refine ⟨msg, ?_⟩
    cases hfl : status.filter (fun p => decide (p.2 ≠ GIT_STATUS_CURRENT)) with
    | nil => exact absurd hfl hne
    | cons a l =>
        rw [hfl] at hmsg
        simp only [git_commit_and_push, hfl, List.isEmpty_cons,
          Bool.false_eq_true, if_false, hmsg]
        rfl
  · intro hall
    have hfil : status.filter (fun p => decide (p.2 ≠ GIT_STATUS_CURRENT)) = [] := by
      rw [List.filter_eq_nil_iff]
      intro c hc
      simp [hall c hc]
    simp only [git_commit_and_push, hfil]
    rfl

/-- Witness for C8: one added file and one current file commit and push; an
all-current status performs nothing. -/
theorem git_commit_and_push_commit_iff_changes_witness :
    ((∃ c ∈ [("path/a.json", GIT_STATUS_INDEX_NEW),
        ("path/b.json", GIT_STATUS_CURRENT)], c.2 ≠ GIT_STATUS_CURRENT) →
      ∃ msg, git_commit_and_push [("path/a.json", GIT_STATUS_INDEX_NEW),
          ("path/b.json", GIT_STATUS_CURRENT)]
        = Except.ok [GitOp.createCommit msg, GitOp.push]) ∧
    ((∀ c ∈ [("path/a.json", GIT_STATUS_INDEX_NEW),
        ("path/b.json", GIT_STATUS_CURRENT)], c.2 = GIT_STATUS_CURRENT) →
      git_commit_and_push [("path/a.json", GIT_STATUS_INDEX_NEW),
          ("path/b.json", GIT_STATUS_CURRENT)] = Except.ok []) :=
  git_commit_and_push_commit_iff_changes
    [("path/a.json", GIT_STATUS_INDEX_NEW), ("path/b.json", GIT_STATUS_CURRENT)]
    (by decide) (by decide)

/-- C10 counterexample: the non-empty change list
`[(a.json, INDEX_NEW), (/b.json, WT_NEW)]` contains a flag outside the three
index statuses, yet the function raises `ValueError`, not `KeyError`: with
differing flags the generic word is chosen without any dictionary lookup and
`os.path.commonpath` raises first on the mixed absolute and relative
paths. -/
theorem construct_commit_msg_valueerror_preempts :
    ([("a.json", GIT_STATUS_INDEX_NEW), ("/b.json", GIT_STATUS_WT_NEW)]
      ≠ ([] : List (String × Nat))) ∧
    (∃ c ∈ [("a.json", GIT_STATUS_INDEX_NEW), ("/b.json", GIT_STATUS_WT_NEW)],
      c.2 ∉ ([GIT_STATUS_INDEX_NEW, GIT_STATUS_INDEX_MODIFIED,
        GIT_STATUS_INDEX_DELETED] : List Nat)) ∧
    construct_commit_msg
        [("a.json", GIT_STATUS_INDEX_NEW), ("/b.json", GIT_STATUS_WT_NEW)]
      = Except.error PyErr.valueError ∧
    ∀ f, construct_commit_msg
        [("a.json", GIT_STATUS_INDEX_NEW), ("/b.json", GIT_STATUS_WT_NEW)]
      ≠ Except.error (PyErr.keyError f) := by
  refine ⟨by decide, by decide, by decide, ?_⟩
  intro f h
  rw [show construct_commit_msg
      [("a.json", GIT_STATUS_INDEX_NEW), ("/b.json", GIT_STATUS_WT_NEW)]
    = Except.error PyErr.valueError from by decide] at h
  cases h

/-- C10 (amended): on every non-empty change list whose paths do not mix
absolute and relative form (all relative, as `repo.status()` produces) and
which contains a flag outside the three index statuses, the construction
raises the `KeyError` of such a flag; with mixed absolute and relative paths
the `ValueError` of `os.path.commonpath` can preempt the lookup. -/
theorem construct_commit_msg_keyerror_on_bad_flag
    (changes : List (String × Nat)) (hne : changes ≠ [])
    (hrel : ∀ c ∈ changes, isAbsPath c.1 = false)
    (hbad : ∃ c ∈ changes, c.2 ∉ ([GIT_STATUS_INDEX_NEW,
      GIT_STATUS_INDEX_MODIFIED, GIT_STATUS_INDEX_DELETED] : List Nat)) :
    ∃ f, construct_commit_msg changes = Except.error (PyErr.keyError f) ∧
      f ∉ ([GIT_STATUS_INDEX_NEW, GIT_STATUS_INDEX_MODIFIED,
        GIT_STATUS_INDEX_DELETED] : List Nat) := by
  by_cases hlen : changes.length > 1
  · by_cases hded : ((changes.map (fun c => c.2)).dedup).length = 1
    · obtain ⟨c, hc, hcbad⟩ := hbad
      have hceq : (changes.headI).2 = c.2 :=
        all_eq_of_dedup_length_one hded _
          (List.mem_map.mpr ⟨changes.headI, headI_mem hne, rfl⟩) _
          (List.mem_map.mpr ⟨c, hc, rfl⟩)
      refine ⟨c.2, ?_, hcbad⟩
      simp only [construct_commit_msg]
      rw [if_pos hlen, if_pos hded, hceq, status_str2_bad hcbad]
      rfl
    · have hcp : ∃ cp, commonpath (changes.map (fun c => c.1)) = Except.ok cp := by
        refine commonpath_ok (by simpa using hne) ?_
        intro q hq
        obtain ⟨c, hc, rfl⟩ := List.mem_map.mp hq
        exact hrel c hc
      obtain ⟨cp, hcp⟩ := hcp
      obtain ⟨f, hf, hfbad⟩ := appendLines_bad changes
        ("Performed " ++ toString changes.length ++ " changes" ++
          (if cp ≠ "" then " in " ++ cp ++ " hostgroup\n\n" else "\n\n")) hbad
      refine ⟨f, ?_, hfbad⟩
      simp only [construct_commit_msg]
      rw [if_pos hlen, if_neg hded, hcp]
      exact hf
  · obtain ⟨f, hf, hfbad⟩ := appendLines_bad changes "" hbad
    refine ⟨f, ?_, hfbad⟩
    simp only [construct_commit_msg]
    rw [if_neg hlen]
    exact hf

/-- Witness for C10 on the single working-tree-new change `(x.json, 128)`. -/
theorem construct_commit_msg_keyerror_on_bad_flag_witness :
    (([("x.json", GIT_STATUS_WT_NEW)] : List (String × Nat)) ≠ [] ∧
      (∃ c ∈ ([("x.json", GIT_STATUS_WT_NEW)] : List (String × Nat)),
        c.2 ∉ ([GIT_STATUS_INDEX_NEW, GIT_STATUS_INDEX_MODIFIED,
          GIT_STATUS_INDEX_DELETED] : List Nat))) ∧
    ∃ f, construct_commit_msg [("x.json", GIT_STATUS_WT_NEW)]
        = Except.error (PyErr.keyError f) ∧
      f ∉ ([GIT_STATUS_INDEX_NEW, GIT_STATUS_INDEX_MODIFIED,
        GIT_STATUS_INDEX_DELETED] : List Nat) :=
  ⟨⟨by decide, by decide⟩,
    construct_commit_msg_keyerror_on_bad_flag [("x.json", GIT_STATUS_WT_NEW)]
      (by decide) (by decide) (by decide)⟩

/-! ## `zabbix_import_templates` (lines 244-285) and
`zabbix_remove_templates` (lines 287-302)

The filesystem and the Zabbix API are external collaborators: the parsed
file contents are passed as data, and the remote import call is an oracle
giving the outcome per file. The import loop is

```
for templates in import_order:
    for template in templates:
        try:
            import_template(filepaths[template])
        except KeyError as err:
            LOGGER.warning('Skipping dependent template %s, ...', err)
        except Exception as err:
            LOGGER.error('Failed importing template %s ...: %s. Skipping.', ...)
```
-/

/-- Errors raised by the external import call; `KeyError` is caught by the
same arm as a missing filepath, everything else by the `Exception` arm. -/
inductive ApiErr where
  | keyError
  | exc (msg : String)
deriving DecidableEq

/-- The fate of one template in the import loop. -/
inductive ImportOutcome where
  | imported (file : String)
  | warnedSkipped
  | errored (msg : String)
deriving DecidableEq

/-- The body of the inner loop for one template: `filepaths[template]`
raises `KeyError` when the name is not among the files collected in this
batch (warning, template skipped); an exception from `import_template` is
logged as an error and the template skipped; otherwise the file is
imported. -/
def attemptTemplate (filepaths : String → Option String)
    (importResult : String → Except ApiErr Unit) (t : String) : ImportOutcome :=
  match filepaths t with
  | none => ImportOutcome.warnedSkipped
  | some f =>
      match importResult f with
      | Except.ok _ => ImportOutcome.imported f
      | Except.error ApiErr.keyError => ImportOutcome.warnedSkipped
      | Except.error (ApiErr.exc m) => ImportOutcome.errored m

/-- The inner `for template in templates:` loop. -/
def runWave (filepaths : String → Option String)
    (importResult : String → Except ApiErr Unit) :
    List String → List (String × ImportOutcome)
  | [] => []
  | t :: ts =>
      (t, attemptTemplate filepaths importResult t) ::
        runWave filepaths importResult ts

/-- The wave-by-wave loop of `zabbix_import_templates`, given the resolved
`import_order`, the `filepaths` dictionary and the remote behaviour. -/
def zabbix_import_templates (filepaths : String → Option String)
    (importResult : String → Except ApiErr Unit) :
    List (List String) → List (String × ImportOutcome)
  | [] => []
  | w :: ws =>
      runWave filepaths importResult w ++
        zabbix_import_templates filepaths importResult ws

lemma runWave_map_fst (filepaths : String → Option String)
    (importResult : String → Except ApiErr Unit) (w : List String) :
    (runWave filepaths importResult w).map Prod.fst = w := by
  induction w with
  | nil => rfl
  | cons t ts ih => simp [runWave, ih]

lemma mem_runWave_snd {filepaths : String → Option String}
    {importResult : String → Except ApiErr Unit} {w : List String}
    {pr : String × ImportOutcome} (h : pr ∈ runWave filepaths importResult w) :
    pr.2 = attemptTemplate filepaths importResult pr.1 := by
  induction w with
  | nil => cases h
  | cons t ts ih =>
      rcases List.mem_cons.mp h with rfl | h2
      · rfl
      · exact ih h2

/-- C5: every template of every wave is attempted, in order: the run lists
exactly the templates of the concatenated waves, and each entry carries the
outcome of its own attempt alone — a missing file or a `KeyError` gives a
logged warning, any other exception a logged error, and in either case only
that template is skipped while every other template of its wave and of all
later waves still appears with its own attempt. -/
theorem zabbix_import_templates_attempts_all
    (filepaths : String → Option String)
    (importResult : String → Except ApiErr Unit)
    (import_order : List (List String)) :
    (zabbix_import_templates filepaths importResult import_order).map Prod.fst
      = import_order.flatten ∧
    ∀ pr ∈ zabbix_import_templates filepaths importResult import_order,
      pr.2 = attemptTemplate filepaths importResult pr.1 := by
  constructor
  · induction import_order with
    | nil => rfl
    | cons w ws ih =>
        simp [zabbix_import_templates, List.map_append, runWave_map_fst, ih]
  · intro pr hpr
    induction import_order with
    | nil => cases hpr
    | cons w ws ih =>
        rcases List.mem_append.mp hpr with h | h
        · exact mem_runWave_snd h
        · exact ih h

/-- Calls made against the Zabbix API by the removal path. -/
inductive ZbxCall where
  | templateGet (names : List String)
  | templateDelete (ids : List String)
deriving DecidableEq

/-- `dict.update({k: v})` on an association list: an existing key keeps its
position and receives the new value, a new key is appended. -/
def dictUpd (m : List (String × String)) (k v : String) :
    List (String × String) :=
  if m.any (fun p => decide (p.1 = k)) then
    m.map (fun p => if p.1 = k then (k, v) else p)
  else m ++ [(k, v)]

/-- `zabbix_remove_templates(template_files)`: each file contributes the
names of the templates it defines (`template['name']` over
`zabbix_export.templates`, mapped to the file in the `templates` dict); the
function resolves their IDs with one `template.get` call and stops there —
the `ZAPI.template.delete(...)` line is commented out in the source, so the
emitted effect trace is the single lookup. -/
def zabbix_remove_templates (files : List (String × List String)) :
    List ZbxCall :=
  let templates := files.foldl
    (fun m f => f.2.foldl (fun m2 t => dictUpd m2 t f.1) m) []
  [ZbxCall.templateGet (templates.map Prod.fst)]

/-- C4: the claim says the objects flagged working-tree-new are removed from
the remote system by `zabbix_remove_templates` issuing the delete call. The
function (whose docstring says it removes the given templates from Zabbix)
only resolves template IDs: the delete call is commented out, so on no input
does the effect trace ever contain a `template.delete` call — shown here on
the concrete batch of one file defining template `T1` and for all inputs. -/
theorem zabbix_remove_templates_never_deletes :
    zabbix_remove_templates [("grp/T1.json", ["T1"])]
      = [ZbxCall.templateGet ["T1"]] ∧
    ∀ files : List (String × List String), ∃ names,
      zabbix_remove_templates files = [ZbxCall.templateGet names] :=
  ⟨by decide, fun _ => ⟨_, rfl⟩⟩

end ZbxTplTools
